import Mathlib

/-!
Verification of the 2x2x2 Rubik's cube model and BFS solver from
`m6006_r16_01_rubiks_cube.cpp`.

The state of the cube is an array of 24 facelet identifiers (`mSlots`), one
per slot; a slot is addressed by cubelet coordinates `(x, y, z)` and the face
axis `f`.  Facelet identifiers pack three 3-bit colors.  Each of the six moves
is a precomputed permutation of the 24 slot indices (`Move`), the clockwise
rows built by `populate_move` and the counter-clockwise rows derived as
inverses.  `apply_move` replaces slot `i` with the old content of slot
`Move[m][i]`; `is_solved` compares primary colors against per-axis reference
slots; `get_solution` is a breadth-first search over states keyed by full
state equality, followed by a walk up the parent links.

Machine integers: facelet ids are `uint16_t` in the source but every value
ever stored is produced by `get_facelet_id` on colors `0..5`, hence below
`2^9`; no arithmetic overflows, so `Nat` models them exactly.  Move
identifiers are C `int`-backed enum values, modelled as `Int` so that the
defensive bound check of `apply_move` (`m >= NUMMOVES || m < 0`) is
representable.  The `std::unordered_map` used by the search is modelled as an
association list looked up by key equality, which is its observable behaviour
for `find`/`operator[]` (the hash only affects performance).  The C++ BFS
`while` loop is modelled with a fuel parameter; the fuel constant `FUEL`
strictly dominates the number of iterations the loop can make from any
24-slot start state (each iteration pops one entry of the frontier and every
push is a state never seen before, of which there are at most `24 ^ 24`), so
the bounded loop and the C++ loop coincide.
-/

set_option maxHeartbeats 4000000
set_option maxRecDepth 16384

namespace RubiksCube

/-- Cube state: the 24 facelet slots (`facelet_id_t mSlots[NUMSLOTS]`). -/
abbrev State := List Nat

/-- `NUMSLOTS = 24`. -/
def NUMSLOTS : Nat := 24

/-- `NUMMOVES = 6` (enum `move_type_t { FC, FCC, DC, DCC, LC, LCC, NUMMOVES }`). -/
def NUMMOVES : Int := 6

/-- `get_slot_num(x, y, z, f) = (x << 2 | y << 1 | z) * 3 + f`. -/
def get_slot_num (x y z f : Nat) : Nat :=
  (Nat.lor (Nat.lor (x <<< 2) (y <<< 1)) z) * 3 + f

/-- `get_facelet_id(c1, c2, c3) = c1 << 6 | c2 << 3 | c3`. -/
def get_facelet_id (c1 c2 c3 : Nat) : Nat :=
  Nat.lor (Nat.lor (c1 <<< 6) (c2 <<< 3)) c3

/-- `get_facelet_color(f) = (f >> 6) & 0x7`. -/
def get_facelet_color (f : Nat) : Nat :=
  Nat.land (f >>> 6) 0x7

/-- The color enum `color_t { R, G, B, C, M, Y }` as numeric values 0..5. -/
def color_R : Nat := 0

def color_G : Nat := 1

def color_B : Nat := 2

def color_C : Nat := 3

def color_M : Nat := 4

def color_Y : Nat := 5

/-- The inner double loop of the `populate_move` lambda in `init_moves`:
for each of the 4 rotated cubelets and each of the 3 faces, the slot of
`(cubelet_from, facelet_from)` is made to map to the slot of
`(cubelet_to, facelet_to)`. -/
def populate_move (row : List Nat) (cbltf cbltt : List (List Nat))
    (faceletf facelett : List Nat) : List Nat :=
  (List.range 4).foldl (fun r cubelet =>
    (List.range 3).foldl (fun r2 facelet =>
      r2.set
        (get_slot_num ((cbltf.getD cubelet []).getD 0 0) ((cbltf.getD cubelet []).getD 1 0)
          ((cbltf.getD cubelet []).getD 2 0) (faceletf.getD facelet 0))
        (get_slot_num ((cbltt.getD cubelet []).getD 0 0) ((cbltt.getD cubelet []).getD 1 0)
          ((cbltt.getD cubelet []).getD 2 0) (facelett.getD facelet 0))) r) row

/-- A move row before population: the identity on the 24 slots. -/
def idRow : List Nat := List.range 24

/-- The `FC` row of `Move`, from the Front-Clockwise block of `init_moves`. -/
def rowFC : List Nat :=
  populate_move idRow [[0, 0, 0], [0, 0, 1], [0, 1, 1], [0, 1, 0]]
    [[0, 0, 1], [0, 1, 1], [0, 1, 0], [0, 0, 0]] [0, 1, 2] [0, 2, 1]

/-- The `LC` row of `Move`, from the Left-Clockwise block of `init_moves`. -/
def rowLC : List Nat :=
  populate_move idRow [[0, 0, 0], [0, 0, 1], [1, 0, 1], [1, 0, 0]]
    [[0, 0, 1], [1, 0, 1], [1, 0, 0], [0, 0, 0]] [0, 1, 2] [2, 1, 0]

/-- The `DC` row of `Move`, from the Down-Clockwise block of `init_moves`. -/
def rowDC : List Nat :=
  populate_move idRow [[0, 0, 0], [0, 1, 0], [1, 1, 0], [1, 0, 0]]
    [[0, 1, 0], [1, 1, 0], [1, 0, 0], [0, 0, 0]] [0, 1, 2] [1, 0, 2]

/-- The final loop of `init_moves`: `Move[mcc][Move[mc][i]] = i` for all
slots `i`, applied to a row that starts out as the identity. -/
def invertRow (cw : List Nat) : List Nat :=
  (List.range 24).foldl (fun ccw i => ccw.set (cw.getD i 0) i) idRow

/-- The fully initialized move table, rows in enum order
`FC, FCC, DC, DCC, LC, LCC`.  (`init_moves` runs once; the
`Move[0][0] != 0` guard only makes re-runs no-ops.) -/
def MoveRows : List (List Nat) :=
  [rowFC, invertRow rowFC, rowDC, invertRow rowDC, rowLC, invertRow rowLC]

/-- `Move[m][i]` after initialization. -/
def Move (m i : Nat) : Nat := (MoveRows.getD m []).getD i 0

/-- `apply_move`: out-of-range moves are a no-op; otherwise slot `i` of the
new state receives the old content of slot `Move[m][i]`
(`mSlots[i] = oldSlots[Move[m][i]]`). -/
def apply_move (s : State) (m : Int) : State :=
  if NUMMOVES ≤ m ∨ m < 0 then s
  else (List.range 24).map (fun i => s.getD (Move m.toNat i) 0)

/-- `face_color` of the constructor: X faces R/G, Y faces B/C, Z faces M/Y. -/
def face_color : List (List Nat) := [[0, 1], [2, 3], [4, 5]]

/-- `cubelet_color` of the constructor body. -/
def cubelet_color (x y z : Nat) : List Nat :=
  [(face_color.getD 0 []).getD x 0, (face_color.getD 1 []).getD y 0,
    (face_color.getD 2 []).getD z 0]

/-- The `RubiksCube()` constructor: the solved state, every slot filled with
the facelet id packing the cubelet's own colors starting at face `f`. -/
def construct : State :=
  (List.range 2).foldl (fun s x =>
    (List.range 2).foldl (fun s y =>
      (List.range 2).foldl (fun s z =>
        (List.range 3).foldl (fun s f =>
          s.set (get_slot_num x y z f)
            (get_facelet_id ((cubelet_color x y z).getD f 0)
              ((cubelet_color x y z).getD ((f + 1) % 3) 0)
              ((cubelet_color x y z).getD ((f + 2) % 3) 0))) s) s) s)
    (List.replicate 24 0)

/-- `is_solved`: every slot's primary color equals the primary color of the
reference slot for its face axis (the other two coordinates forced to 0). -/
def is_solved (s : State) : Bool :=
  (List.range 2).all fun x =>
    (List.range 2).all fun y =>
      (List.range 2).all fun z =>
        (List.range 3).all fun f =>
          get_facelet_color (s.getD (get_slot_num x y z f) 0)
            == get_facelet_color (s.getD (get_slot_num (if f = 0 then x else 0)
                (if f = 1 then y else 0) (if f = 2 then z else 0) f) 0)

/-- One entry of the `parents` map: key state, predecessor state, move used. -/
abbrev Entry := State × State × Int

/-- The keys of the `parents` map. -/
def keys (ps : List Entry) : List State := ps.map (fun e => e.1)

/-- `parents.find(s)`: lookup by full state equality (`RubiksCubeEqual`). -/
def lookup (ps : List Entry) (s : State) : Option Entry :=
  ps.find? (fun e => e.1 == s)

/-- The move enumeration order of the BFS expansion loop (`m = 0 .. 5`). -/
def valid_moves : List Int := [0, 1, 2, 3, 4, 5]

/-- The inner `for` loop of the BFS: try each move on `u`; states not yet in
`parents` are recorded with predecessor `u` and pushed on the frontier. -/
def expand (u : State) (ms : List Int) (fr : List State) (ps : List Entry) :
    List State × List Entry :=
  ms.foldl (fun acc m =>
    let v := apply_move u m
    match lookup acc.2 v with
    | some _ => acc
    | none => (acc.1 ++ [v], (v, u, m) :: acc.2)) (fr, ps)

/-- The BFS `while` loop: pop the frontier head, stop if it is solved,
otherwise expand it.  The fuel argument only bounds the iteration count;
`FUEL` makes the bound never bind (see module docstring). -/
def bfs_loop : Nat → List State → List Entry → Option State × List Entry
  | 0, _, ps => (none, ps)
  | _ + 1, [], ps => (none, ps)
  | fuel + 1, u :: fr, ps =>
    if is_solved u then (some u, ps)
    else
      let fp := expand u valid_moves fr ps
      bfs_loop fuel fp.1 fp.2

/-- The reconstruction loop: follow parent links from the destination entry,
prepending each move, until the start state (or a missing entry) is met. -/
def backtrack : Nat → List Entry → Option Entry → State → List Int → List Int
  | 0, _, _, _, sol => sol
  | fuel + 1, ps, itr, start, sol =>
    match itr with
    | none => sol
    | some e =>
      if e.1 == start then sol
      else backtrack fuel ps (lookup ps e.2.1) start (e.2.2 :: sol)

/-- Iteration budget strictly above what the BFS can ever use from a 24-slot
start state (at most `24 ^ 24` distinct states are ever inserted). -/
def FUEL : Nat := 7 * 24 ^ 24 + 2

/-- `get_solution`: BFS from `start` seeded with `parents[start] =
(start, NUMMOVES)`, then reconstruction of the move sequence. -/
def get_solution (start : State) : List Int :=
  let r := bfs_loop FUEL [start] [(start, start, (6 : Int))]
  match r.1 with
  | none => []
  | some dst => backtrack FUEL r.2 (lookup r.2 dst) start []

/-- Replaying a move sequence in order from a state. -/
def replay (s : State) (ms : List Int) : State := ms.foldl apply_move s

/-- `t` is reached from `s` by some sequence of `n` valid moves. -/
def ReachIn (s t : State) (n : Nat) : Prop :=
  ∃ ms : List Int, ms.length = n ∧ (∀ m ∈ ms, 0 ≤ m ∧ m < 6) ∧ replay s ms = t

/-- `t` is reachable from `s` by some sequence of valid moves. -/
def Reachable (s t : State) : Prop := ∃ n, ReachIn s t n

/-- The inverse move pairing of the specification: each clockwise move is
swapped with its counter-clockwise counterpart (`FC ↔ FCC`, `DC ↔ DCC`,
`LC ↔ LCC`, i.e. even ids with the following odd id). -/
def inverse_move (m : Int) : Int := if m % 2 = 0 then m + 1 else m - 1

/-- Every state reachable from `start` reads its slots through a slot
permutation: `mapF start σ` is the state whose slot `i` holds the facelet of
slot `σ i` of `start`. -/
def mapF (start : State) (σ : Nat → Nat) : State :=
  (List.range 24).map (fun i => start.getD (σ i) 0)

/-- The structural properties shared by every slot permutation generated by
the move table: it permutes the 24 slots, fixes the three slots of the
never-moved cubelet `(1,1,1)` (slots 21..23), and maps the three slots of a
cubelet to the three slots of a single cubelet. -/
def CubePerm (σ : Nat → Nat) : Prop :=
  (∀ i < 24, σ i < 24) ∧
  (∀ i < 24, ∀ j < 24, σ i = σ j → i = j) ∧
  (∀ f < 3, σ (21 + f) = 21 + f) ∧
  (∀ c < 8, ∀ f1 < 3, ∀ f2 < 3, σ (3 * c + f1) / 3 = σ (3 * c + f2) / 3)

/-- The primary color of home facelet `(cubelet c, face axis g)` in the
constructed cube: X faces show `c/4`-th of R/G, Y faces `2 + y`, Z faces
`4 + z`. -/
def homeColor (c g : Nat) : Nat :=
  if g = 0 then c / 4 else if g = 1 then 2 + c / 2 % 2 else 4 + c % 2

/-- The color shown at a slot: the primary color of the facelet id stored
there. -/
def shownColor (s : State) (i : Nat) : Nat := get_facelet_color (s.getD i 0)

/-- Invariant of the BFS loop of `get_solution`, tying the frontier `fr` and
the parent map `ps` to a depth assignment `D`.  `D` records, for every key,
its BFS-tree depth, which the invariant forces to equal its distance from
`start`. -/
structure SearchInv (start : State) (fr : List State) (ps : List Entry)
    (D : State → Nat) : Prop where
  keys_nodup : (keys ps).Nodup
  start_mem : start ∈ keys ps
  d_start : D start = 0
  entry_shape : ∀ e ∈ ps, e.1 ≠ start →
    e.2.1 ∈ keys ps ∧
    (∃ mn : Nat, mn < 6 ∧ e.2.2 = (mn : Int) ∧ e.1 = apply_move e.2.1 (mn : Int)) ∧
    D e.1 = D e.2.1 + 1
  keys_least : ∀ v ∈ keys ps, IsLeast {n | ReachIn start v n} (D v)
  d_bound : ∀ v ∈ keys ps, D v + 1 ≤ ps.length
  fr_sub : ∀ v ∈ fr, v ∈ keys ps
  fr_nodup : fr.Nodup
  fr_sorted : fr.Pairwise (fun a b => D a ≤ D b)
  fr_window : ∀ a ∈ fr, ∀ b ∈ fr, D b ≤ D a + 1
  closed : ∀ v ∈ keys ps, v ∉ fr → ∀ mn : Nat, mn < 6 → apply_move v (mn : Int) ∈ keys ps
  not_solved : ∀ v ∈ keys ps, v ∉ fr → is_solved v = false
  complete : ∀ w n, ReachIn start w n → (∀ h ∈ fr.head?, n ≤ D h) → w ∈ keys ps

/-- Invariant holding in the middle of expanding a popped, unsolved state `u`
of depth `d`: `rest` are the moves not tried yet, `fr` is the remaining old
frontier followed by the states pushed so far. -/
structure ExpandInv (start u : State) (d : Nat) (rest : List Int) (fr : List State)
    (ps : List Entry) (D : State → Nat) : Prop where
  keys_nodup : (keys ps).Nodup
  start_mem : start ∈ keys ps
  d_start : D start = 0
  entry_shape : ∀ e ∈ ps, e.1 ≠ start →
    e.2.1 ∈ keys ps ∧
    (∃ mn : Nat, mn < 6 ∧ e.2.2 = (mn : Int) ∧ e.1 = apply_move e.2.1 (mn : Int)) ∧
    D e.1 = D e.2.1 + 1
  keys_least : ∀ v ∈ keys ps, IsLeast {n | ReachIn start v n} (D v)
  d_bound : ∀ v ∈ keys ps, D v + 1 ≤ ps.length
  u_mem : u ∈ keys ps
  d_u : D u = d
  u_not_solved : is_solved u = false
  u_notin_fr : u ∉ fr
  fr_sub : ∀ v ∈ fr, v ∈ keys ps
  fr_nodup : fr.Nodup
  fr_split : ∃ tl nw, fr = tl ++ nw ∧ tl.Pairwise (fun a b => D a ≤ D b) ∧
    (∀ v ∈ tl, D v = d ∨ D v = d + 1) ∧ (∀ v ∈ nw, D v = d + 1)
  closed_old : ∀ v ∈ keys ps, v ∉ fr → v ≠ u → ∀ mn : Nat, mn < 6 →
    apply_move v (mn : Int) ∈ keys ps
  processed : ∀ m ∈ valid_moves, m ∉ rest → apply_move u m ∈ keys ps
  not_solved_old : ∀ v ∈ keys ps, v ∉ fr → v ≠ u → is_solved v = false
  complete_d : ∀ w n, ReachIn start w n → n ≤ d → w ∈ keys ps

/-! ### Finite facts about the move table, checked by evaluation -/

lemma move_lt : ∀ mn < 6, ∀ i < 24, Move mn i < 24 := by decide

lemma move_ccw_cw : ∀ k < 3, ∀ i < 24, Move (2 * k + 1) (Move (2 * k) i) = i := by decide

lemma move_cw_ccw : ∀ k < 3, ∀ i < 24, Move (2 * k) (Move (2 * k + 1) i) = i := by decide

lemma move_order_four :
    ∀ k < 3, ∀ i < 24, Move (2 * k) (Move (2 * k) (Move (2 * k) (Move (2 * k) i))) = i := by
  decide

lemma move_perm_range : ∀ mn < 6, ((List.range 24).map (Move mn)).Perm (List.range 24) := by
  decide

lemma construct_length : construct.length = 24 := by decide

/-! ### Pointwise description of `apply_move` -/

lemma getD_map_range (g : Nat → Nat) (i : Nat) (hi : i < 24) :
    (((List.range 24).map g).getD i 0) = g i := by
  rw [List.getD_eq_getElem _ _ (by simpa using hi)]
  simp

lemma apply_move_valid (s : State) (mn : Nat) (h : mn < 6) :
    apply_move s (mn : Int) = (List.range 24).map (fun i => s.getD (Move mn i) 0) := by
  unfold apply_move
  rw [if_neg (by simp [NUMMOVES]; omega)]
  simp

lemma apply_move_getD (s : State) (mn : Nat) (h : mn < 6) (i : Nat) (hi : i < 24) :
    (apply_move s (mn : Int)).getD i 0 = s.getD (Move mn i) 0 := by
  rw [apply_move_valid s mn h, getD_map_range _ _ hi]

lemma apply_move_valid_length (s : State) (mn : Nat) (h : mn < 6) :
    (apply_move s (mn : Int)).length = 24 := by
  rw [apply_move_valid s mn h]; simp

lemma apply_move_length (s : State) (h24 : s.length = 24) (m : Int) :
    (apply_move s m).length = 24 := by
  unfold apply_move
  by_cases h : NUMMOVES ≤ m ∨ m < 0
  · rw [if_pos h]; exact h24
  · rw [if_neg h]; simp

lemma state_ext {s t : State} (hs : s.length = 24) (ht : t.length = 24)
    (h : ∀ i < 24, s.getD i 0 = t.getD i 0) : s = t := by
  apply List.ext_getElem (by rw [hs, ht])
  intro n h1 h2
  have hn : n < 24 := by omega
  have := h n hn
  rwa [List.getD_eq_getElem _ _ h1, List.getD_eq_getElem _ _ h2] at this

lemma getD_range_self {s : State} (h24 : s.length = 24) :
    (List.range 24).map (fun i => s.getD i 0) = s := by
  apply List.ext_getElem (by simp [h24])
  intro n h1 h2
  simp only [List.getElem_map, List.getElem_range]
  rw [List.getD_eq_getElem _ _ h2]

lemma mem_valid_moves {m : Int} : m ∈ valid_moves ↔ 0 ≤ m ∧ m < 6 := by
  simp only [valid_moves, List.mem_cons, List.not_mem_nil, or_false]
  omega

lemma valid_move_cast {m : Int} (h : 0 ≤ m ∧ m < 6) :
    ∃ mn : Nat, mn < 6 ∧ m = (mn : Int) := by
  refine ⟨m.toNat, by omega, by omega⟩

/-! ### More finite move-table facts -/

lemma move_inj : ∀ mn < 6, ∀ i < 24, ∀ j < 24, Move mn i = Move mn j → i = j := by decide

lemma move_fix_corner : ∀ mn < 6, ∀ f < 3, Move mn (21 + f) = 21 + f := by decide

lemma move_block : ∀ mn < 6, ∀ c < 8, ∀ f < 3, Move mn (3 * c + f) / 3 = Move mn (3 * c) / 3 := by
  decide

lemma construct_color : ∀ j < 24, get_facelet_color (construct.getD j 0) = homeColor (j / 3) (j % 3) := by
  decide

lemma slot_num_coords : ∀ c < 8, ∀ f < 3, get_slot_num (c / 4) (c / 2 % 2) (c % 2) f = 3 * c + f := by
  decide

lemma is_solved_construct : is_solved construct = true := by decide

/-! ### Replay, reachability -/

lemma replay_nil (s : State) : replay s [] = s := rfl

lemma replay_cons (s : State) (m : Int) (ms : List Int) :
    replay s (m :: ms) = replay (apply_move s m) ms := rfl

lemma replay_append (s : State) (ms ns : List Int) :
    replay s (ms ++ ns) = replay (replay s ms) ns := by
  simp [replay, List.foldl_append]

lemma replay_length {s : State} (h24 : s.length = 24) (ms : List Int) :
    (replay s ms).length = 24 := by
  induction ms generalizing s with
  | nil => exact h24
  | cons m ms ih => exact ih (apply_move_length s h24 m)

lemma reachIn_zero {s t : State} : ReachIn s t 0 ↔ s = t := by
  constructor
  · rintro ⟨ms, hlen, _, hrep⟩
    rw [List.length_eq_zero] at hlen
    subst hlen
    exact hrep.symm ▸ rfl
  · rintro rfl
    exact ⟨[], rfl, by simp, rfl⟩

lemma reachIn_self (s : State) : ReachIn s s 0 := reachIn_zero.mpr rfl

lemma reachIn_step {s w : State} {n : Nat} (h : ReachIn s w n) {m : Int}
    (hm : 0 ≤ m ∧ m < 6) : ReachIn s (apply_move w m) (n + 1) := by
  obtain ⟨ms, hlen, hval, hrep⟩ := h
  refine ⟨ms ++ [m], by simp [hlen], ?_, ?_⟩
  · intro x hx
    rcases List.mem_append.mp hx with hx | hx
    · exact hval x hx
    · simp at hx
      subst hx
      exact hm
  · rw [replay_append, hrep]
    rfl

lemma reachIn_succ {s w : State} {n : Nat} (h : ReachIn s w (n + 1)) :
    ∃ w' m, ReachIn s w' n ∧ (0 ≤ m ∧ m < 6) ∧ w = apply_move w' m := by
  obtain ⟨ms, hlen, hval, hrep⟩ := h
  rcases List.eq_nil_or_concat ms with rfl | ⟨ms', m, rfl⟩
  · simp at hlen
  · rw [List.concat_eq_append] at hlen hval hrep
    refine ⟨replay s ms', m, ⟨ms', by simpa using hlen, fun x hx => hval x (by simp [hx]), rfl⟩,
      hval m (by simp), ?_⟩
    rw [← hrep, replay_append]
    rfl

lemma reachIn_trans {s t u : State} {a b : Nat} (h1 : ReachIn s t a) (h2 : ReachIn t u b) :
    ReachIn s u (a + b) := by
  obtain ⟨ms, hm, hv, hr⟩ := h1
  obtain ⟨ns, hn, hw, hs⟩ := h2
  refine ⟨ms ++ ns, by simp [hm, hn], ?_, ?_⟩
  · intro x hx
    rcases List.mem_append.mp hx with hx | hx
    · exact hv x hx
    · exact hw x hx
  · rw [replay_append, hr, hs]

lemma reachable_trans {s t u : State} (h1 : Reachable s t) (h2 : Reachable t u) :
    Reachable s u := by
  obtain ⟨a, h1⟩ := h1
  obtain ⟨b, h2⟩ := h2
  exact ⟨a + b, reachIn_trans h1 h2⟩

lemma reachable_length {s t : State} (h24 : s.length = 24) (h : Reachable s t) :
    t.length = 24 := by
  obtain ⟨n, ms, _, _, hrep⟩ := h
  rw [← hrep]
  exact replay_length h24 ms

/-! ### Move inversion -/

lemma inverse_move_cast (mn : Nat) (h : mn < 6) :
    inverse_move (mn : Int) = ((if mn % 2 = 0 then mn + 1 else mn - 1 : Nat) : Int) := by
  unfold inverse_move
  interval_cases mn <;> decide

lemma inverse_move_valid (mn : Nat) (h : mn < 6) :
    0 ≤ inverse_move (mn : Int) ∧ inverse_move (mn : Int) < 6 := by
  unfold inverse_move
  interval_cases mn <;> decide

lemma move_inv_move : ∀ mn < 6, ∀ i < 24,
    Move mn (Move (if mn % 2 = 0 then mn + 1 else mn - 1) i) = i := by decide

lemma apply_apply_inverse_aux {s : State} (h24 : s.length = 24) (mn : Nat) (hmn : mn < 6) :
    apply_move (apply_move s (mn : Int)) (inverse_move (mn : Int)) = s := by
  set inv : Nat := if mn % 2 = 0 then mn + 1 else mn - 1 with hinv
  have hinv6 : inv < 6 := by rw [hinv]; split <;> omega
  rw [inverse_move_cast mn hmn]
  apply state_ext (apply_move_length _ (apply_move_valid_length s mn hmn) _) h24
  intro i hi
  rw [apply_move_getD _ inv hinv6 i hi,
    apply_move_getD s mn hmn _ (move_lt inv hinv6 i hi),
    move_inv_move mn hmn i hi]

/-! ### `apply_move` is a permutation of slot contents -/

lemma apply_move_perm {s : State} (h24 : s.length = 24) (m : Int) :
    (apply_move s m).Perm s := by
  by_cases h : NUMMOVES ≤ m ∨ m < 0
  · unfold apply_move
    rw [if_pos h]
  · obtain ⟨mn, hmn, rfl⟩ := @valid_move_cast m (by unfold NUMMOVES at h; omega)
    rw [apply_move_valid s mn hmn]
    have heq : (List.range 24).map (fun i => s.getD (Move mn i) 0)
        = (((List.range 24).map (Move mn)).map (fun j => s.getD j 0)) := by
      rw [List.map_map]
      rfl
    have h1 : (((List.range 24).map (Move mn)).map (fun j => s.getD j 0)).Perm
        ((List.range 24).map (fun j => s.getD j 0)) := (move_perm_range mn hmn).map _
    rw [getD_range_self h24] at h1
    rw [heq]
    exact h1

lemma replay_perm {s : State} (h24 : s.length = 24) (ms : List Int) :
    (replay s ms).Perm s := by
  induction ms generalizing s with
  | nil => exact List.Perm.refl s
  | cons m ms ih =>
    rw [replay_cons]
    exact (ih (apply_move_length s h24 m)).trans (apply_move_perm h24 m)

lemma reachIn_symm {s : State} (h24 : s.length = 24) {t : State} {n : Nat}
    (h : ReachIn s t n) : ReachIn t s n := by
  obtain ⟨ms, hlen, hval, hrep⟩ := h
  subst hlen
  induction ms generalizing s with
  | nil =>
    rw [replay_nil] at hrep
    subst hrep
    exact reachIn_self _
  | cons m ms ih =>
    rw [replay_cons] at hrep
    obtain ⟨mn, hmn, rfl⟩ := valid_move_cast (hval m (by simp))
    have h24' : (apply_move s (mn : Int)).length = 24 := apply_move_valid_length s mn hmn
    have hih : ReachIn t (apply_move s (mn : Int)) ms.length :=
      ih h24' (fun x hx => hval x (by simp [hx])) hrep
    have hstep := reachIn_step hih (inverse_move_valid mn hmn)
    rw [apply_apply_inverse_aux h24 mn hmn] at hstep
    simpa using hstep

/-! ### Reachable states read their slots through a structured permutation -/

lemma cubePerm_id : CubePerm (fun i => i) := by
  refine ⟨fun i hi => hi, fun i _ j _ h => h, fun f _ => rfl, fun c hc f1 h1 f2 h2 => ?_⟩
  show (3 * c + f1) / 3 = (3 * c + f2) / 3
  omega

lemma cubePerm_comp_move {σ : Nat → Nat} (hQ : CubePerm σ) (mn : Nat) (hmn : mn < 6) :
    CubePerm (fun i => σ (Move mn i)) := by
  obtain ⟨hb, hinj, hfix, hblock⟩ := hQ
  refine ⟨fun i hi => hb _ (move_lt mn hmn i hi), ?_, ?_, ?_⟩
  · intro i hi j hj h
    exact move_inj mn hmn i hi j hj
      (hinj _ (move_lt mn hmn i hi) _ (move_lt mn hmn j hj) h)
  · intro f hf
    show σ (Move mn (21 + f)) = 21 + f
    rw [move_fix_corner mn hmn f hf]
    exact hfix f hf
  · intro c hc f1 h1 f2 h2
    show σ (Move mn (3 * c + f1)) / 3 = σ (Move mn (3 * c + f2)) / 3
    have hlt1 : Move mn (3 * c + f1) < 24 := move_lt mn hmn _ (by omega)
    have hlt2 : Move mn (3 * c + f2) < 24 := move_lt mn hmn _ (by omega)
    have hc1 : Move mn (3 * c + f1) / 3 = Move mn (3 * c) / 3 := move_block mn hmn c hc f1 h1
    have hc2 : Move mn (3 * c + f2) / 3 = Move mn (3 * c) / 3 := move_block mn hmn c hc f2 h2
    have e1 : Move mn (3 * c + f1) = 3 * (Move mn (3 * c) / 3) + Move mn (3 * c + f1) % 3 := by
      omega
    have e2 : Move mn (3 * c + f2) = 3 * (Move mn (3 * c) / 3) + Move mn (3 * c + f2) % 3 := by
      omega
    rw [e1, e2]
    exact hblock (Move mn (3 * c) / 3) (by omega) _ (by omega) _ (by omega)

lemma replay_construct_mapF (ms : List Int) (hval : ∀ m ∈ ms, 0 ≤ m ∧ m < 6) :
    ∃ σ, CubePerm σ ∧ replay construct ms = mapF construct σ := by
  induction ms using List.reverseRecOn with
  | nil => exact ⟨fun i => i, cubePerm_id, (getD_range_self construct_length).symm⟩
  | append_singleton ms m ih =>
    obtain ⟨σ, hQ, hrep⟩ := ih (fun x hx => hval x (by simp [hx]))
    obtain ⟨mn, hmn, rfl⟩ := valid_move_cast (hval m (by simp))
    refine ⟨fun i => σ (Move mn i), cubePerm_comp_move hQ mn hmn, ?_⟩
    rw [replay_append, hrep]
    show apply_move (mapF construct σ) (mn : Int) = _
    rw [apply_move_valid _ mn hmn]
    unfold mapF
    apply List.map_congr_left
    intro i hi
    rw [getD_map_range _ _ (move_lt mn hmn i (List.mem_range.mp hi))]

lemma cubePerm_block_repr {σ : Nat → Nat} (hQ : CubePerm σ) (c : Nat) (hc : c < 8)
    (f : Nat) (hf : f < 3) :
    σ (3 * c + f) = 3 * (σ (3 * c) / 3) + σ (3 * c + f) % 3 := by
  have hb : σ (3 * c + f) / 3 = σ (3 * c + 0) / 3 := hQ.2.2.2 c hc f hf 0 (by omega)
  simp only [Nat.add_zero] at hb
  omega

lemma cubePerm_g_inj {σ : Nat → Nat} (hQ : CubePerm σ) (c : Nat) (hc : c < 8) :
    ∀ f1 < 3, ∀ f2 < 3, σ (3 * c + f1) % 3 = σ (3 * c + f2) % 3 → f1 = f2 := by
  intro f1 h1 f2 h2 heq
  have e1 := cubePerm_block_repr hQ c hc f1 h1
  have e2 := cubePerm_block_repr hQ c hc f2 h2
  have hs : σ (3 * c + f1) = σ (3 * c + f2) := by omega
  have := hQ.2.1 (3 * c + f1) (by omega) (3 * c + f2) (by omega) hs
  omega

lemma cubePerm_g_surj {σ : Nat → Nat} (hQ : CubePerm σ) (c : Nat) (hc : c < 8)
    (v : Nat) (hv : v < 3) : ∃ f < 3, σ (3 * c + f) % 3 = v := by
  have hne01 : σ (3 * c + 0) % 3 ≠ σ (3 * c + 1) % 3 := fun h => by
    have := cubePerm_g_inj hQ c hc 0 (by omega) 1 (by omega) h
    omega
  have hne02 : σ (3 * c + 0) % 3 ≠ σ (3 * c + 2) % 3 := fun h => by
    have := cubePerm_g_inj hQ c hc 0 (by omega) 2 (by omega) h
    omega
  have hne12 : σ (3 * c + 1) % 3 ≠ σ (3 * c + 2) % 3 := fun h => by
    have := cubePerm_g_inj hQ c hc 1 (by omega) 2 (by omega) h
    omega
  have hv0 : σ (3 * c + 0) % 3 < 3 := Nat.mod_lt _ (by omega)
  have hv1 : σ (3 * c + 1) % 3 < 3 := Nat.mod_lt _ (by omega)
  have hv2 : σ (3 * c + 2) % 3 < 3 := Nat.mod_lt _ (by omega)
  have : v = σ (3 * c + 0) % 3 ∨ v = σ (3 * c + 1) % 3 ∨ v = σ (3 * c + 2) % 3 := by omega
  rcases this with h | h | h
  · exact ⟨0, by omega, h.symm⟩
  · exact ⟨1, by omega, h.symm⟩
  · exact ⟨2, by omega, h.symm⟩

lemma cubePerm_q_inj {σ : Nat → Nat} (hQ : CubePerm σ) (c : Nat) (hc : c < 8)
    (c' : Nat) (hc' : c' < 8) (hq : σ (3 * c) / 3 = σ (3 * c') / 3) : c = c' := by
  by_contra hne
  have hcross : ∀ f1 < 3, ∀ f2 < 3, σ (3 * c + f1) % 3 ≠ σ (3 * c' + f2) % 3 := by
    intro f1 h1 f2 h2 heq
    have e1 := cubePerm_block_repr hQ c hc f1 h1
    have e2 := cubePerm_block_repr hQ c' hc' f2 h2
    have hs : σ (3 * c + f1) = σ (3 * c' + f2) := by omega
    have := hQ.2.1 (3 * c + f1) (by omega) (3 * c' + f2) (by omega) hs
    omega
  have hne01 : σ (3 * c + 0) % 3 ≠ σ (3 * c + 1) % 3 := fun h => by
    have := cubePerm_g_inj hQ c hc 0 (by omega) 1 (by omega) h
    omega
  have hne02 : σ (3 * c + 0) % 3 ≠ σ (3 * c + 2) % 3 := fun h => by
    have := cubePerm_g_inj hQ c hc 0 (by omega) 2 (by omega) h
    omega
  have hne12 : σ (3 * c + 1) % 3 ≠ σ (3 * c + 2) % 3 := fun h => by
    have := cubePerm_g_inj hQ c hc 1 (by omega) 2 (by omega) h
    omega
  have hx0 := hcross 0 (by omega) 0 (by omega)
  have hx1 := hcross 1 (by omega) 0 (by omega)
  have hx2 := hcross 2 (by omega) 0 (by omega)
  have hv0 : σ (3 * c + 0) % 3 < 3 := Nat.mod_lt _ (by omega)
  have hv1 : σ (3 * c + 1) % 3 < 3 := Nat.mod_lt _ (by omega)
  have hv2 : σ (3 * c + 2) % 3 < 3 := Nat.mod_lt _ (by omega)
  have hw0 : σ (3 * c' + 0) % 3 < 3 := Nat.mod_lt _ (by omega)
  omega

/-! ### Home colors and reference slots -/

lemma homeColor_zero (q : Nat) : homeColor q 0 = q / 4 := rfl

lemma homeColor_one (q : Nat) : homeColor q 1 = 2 + q / 2 % 2 := rfl

lemma homeColor_two (q : Nat) : homeColor q 2 = 4 + q % 2 := rfl

lemma refslot_coords : ∀ x < 2, ∀ y < 2, ∀ z < 2, ∀ f < 3,
    get_slot_num (if f = 0 then x else 0) (if f = 1 then y else 0) (if f = 2 then z else 0) f
      = 3 * (if f = 0 then 4 * x else if f = 1 then 2 * y else z) + f := by decide

/-! ### `is_solved` unfolded -/

lemma is_solved_iff (s : State) : is_solved s = true ↔
    ∀ x < 2, ∀ y < 2, ∀ z < 2, ∀ f < 3,
      get_facelet_color (s.getD (get_slot_num x y z f) 0) =
        get_facelet_color (s.getD (get_slot_num (if f = 0 then x else 0)
          (if f = 1 then y else 0) (if f = 2 then z else 0) f) 0) := by
  simp only [is_solved, List.all_eq_true, List.mem_range, beq_iff_eq]

/-! ### The only reachable solved state is the constructed one -/

lemma solved_mapF_eq {σ : Nat → Nat} (hQ : CubePerm σ)
    (hsv : is_solved (mapF construct σ) = true) : mapF construct σ = construct := by
  have hslen : (mapF construct σ).length = 24 := by unfold mapF; simp
  have hS : ∀ i < 24, (mapF construct σ).getD i 0 = construct.getD (σ i) 0 :=
    fun i hi => getD_map_range _ i hi
  have hSH : ∀ c < 8, ∀ f < 3, shownColor (mapF construct σ) (3 * c + f)
      = homeColor (σ (3 * c) / 3) (σ (3 * c + f) % 3) := by
    intro c hc f hf
    unfold shownColor
    rw [hS _ (by omega), construct_color _ (hQ.1 _ (by omega))]
    have hb : σ (3 * c + f) / 3 = σ (3 * c + 0) / 3 := hQ.2.2.2 c hc f hf 0 (by omega)
    simp only [Nat.add_zero] at hb
    rw [hb]
  have hsolve : ∀ c < 8, ∀ f < 3, shownColor (mapF construct σ) (3 * c + f)
      = shownColor (mapF construct σ)
          (3 * (if f = 0 then 4 * (c / 4) else if f = 1 then 2 * (c / 2 % 2) else c % 2) + f) := by
    intro c hc f hf
    have h := (is_solved_iff _).mp hsv (c / 4) (by omega) (c / 2 % 2) (by omega)
      (c % 2) (by omega) f hf
    rw [slot_num_coords c hc f hf,
      refslot_coords (c / 4) (by omega) (c / 2 % 2) (by omega) (c % 2) (by omega) f hf] at h
    exact h
  have hsurj : ∀ c < 8, ∀ v < 3, ∃ f < 3, σ (3 * c + f) % 3 = v ∧
      shownColor (mapF construct σ) (3 * c + f) = homeColor (σ (3 * c) / 3) v := by
    intro c hc v hv
    obtain ⟨f, hf, hgf⟩ := cubePerm_g_surj hQ c hc v hv
    exact ⟨f, hf, hgf, by rw [hSH c hc f hf, hgf]⟩
  have hqlt : ∀ c < 8, σ (3 * c) / 3 < 8 := by
    intro c hc
    have := hQ.1 (3 * c) (by omega)
    omega
  have h21 : σ 21 = 21 := by have h := hQ.2.2.1 0 (by omega); simpa using h
  have h22 : σ 22 = 22 := by have h := hQ.2.2.1 1 (by omega); simpa using h
  have h23 : σ 23 = 23 := by have h := hQ.2.2.1 2 (by omega); simpa using h
  -- the three face colors fixed by the motionless cubelet (1,1,1)
  have hc70 : shownColor (mapF construct σ) 21 = 1 := by
    have h := hSH 7 (by omega) 0 (by omega)
    norm_num at h
    rw [h21] at h
    norm_num [homeColor] at h
    exact h
  have hc71 : shownColor (mapF construct σ) 22 = 3 := by
    have h := hSH 7 (by omega) 1 (by omega)
    norm_num at h
    rw [h21, h22] at h
    norm_num [homeColor] at h
    exact h
  have hc72 : shownColor (mapF construct σ) 23 = 5 := by
    have h := hSH 7 (by omega) 2 (by omega)
    norm_num at h
    rw [h21, h23] at h
    norm_num [homeColor] at h
    exact h
  have hF01 : shownColor (mapF construct σ) 12 = 1 := by
    have h := hsolve 7 (by omega) 0 (by omega)
    norm_num at h
    rw [hc70] at h
    exact h.symm
  have hF11 : shownColor (mapF construct σ) 7 = 3 := by
    have h := hsolve 7 (by omega) 1 (by omega)
    norm_num at h
    rw [hc71] at h
    exact h.symm
  have hF21 : shownColor (mapF construct σ) 5 = 5 := by
    have h := hsolve 7 (by omega) 2 (by omega)
    norm_num at h
    rw [hc72] at h
    exact h.symm
  -- the front face color: slot 0 shows color 0
  have ha : shownColor (mapF construct σ) 0 = 0 := by
    have hs30 : shownColor (mapF construct σ) 9 = shownColor (mapF construct σ) 0 := by
      have h := hsolve 3 (by omega) 0 (by omega)
      norm_num at h
      exact h
    have hs31 : shownColor (mapF construct σ) 10 = 3 := by
      have h := hsolve 3 (by omega) 1 (by omega)
      norm_num at h
      rw [hF11] at h
      exact h
    have hs32 : shownColor (mapF construct σ) 11 = 5 := by
      have h := hsolve 3 (by omega) 2 (by omega)
      norm_num at h
      rw [hF21] at h
      exact h
    have hq3 : σ 9 / 3 < 8 := by have h := hqlt 3 (by omega); norm_num at h; exact h
    obtain ⟨f0, hf0, hg0, hx0⟩ := hsurj 3 (by omega) 0 (by omega)
    rw [homeColor_zero] at hx0
    interval_cases f0 <;> norm_num at hx0 hg0
    · -- slot 9 shows the x-coordinate color of the cubelet sitting there
      rw [hs30] at hx0
      rcases (show σ 9 / 3 / 4 = 0 ∨ σ 9 / 3 / 4 = 1 by omega) with h04 | h04
      · rw [hx0, h04]
      · exfalso
        obtain ⟨f1, hf1, hg1, hx1⟩ := hsurj 3 (by omega) 1 (by omega)
        rw [homeColor_one] at hx1
        have hy : σ 9 / 3 / 2 % 2 = 1 := by
          interval_cases f1 <;> norm_num at hx1 hg1
          · rw [hs30, hx0, h04] at hx1
            omega
          · rw [hs31] at hx1
            omega
          · rw [hs32] at hx1
            omega
        obtain ⟨f2, hf2, hg2, hx2⟩ := hsurj 3 (by omega) 2 (by omega)
        rw [homeColor_two] at hx2
        have hz : σ 9 / 3 % 2 = 1 := by
          interval_cases f2 <;> norm_num at hx2 hg2
          · rw [hs30, hx0, h04] at hx2
            omega
          · rw [hs31] at hx2
            omega
          · rw [hs32] at hx2
            omega
        have h37 := cubePerm_q_inj hQ 3 (by omega) 7 (by omega) (by
          norm_num
          rw [h21]
          omega)
        omega
    · -- the y-face of the cubelet cannot show an x-pair color
      rw [hs31] at hx0
      omega
    · rw [hs32] at hx0
      omega
  -- the left face color: slot 1 shows color 2
  have hb : shownColor (mapF construct σ) 1 = 2 := by
    have hs50 : shownColor (mapF construct σ) 15 = 1 := by
      have h := hsolve 5 (by omega) 0 (by omega)
      norm_num at h
      rw [hF01] at h
      exact h
    have hs51 : shownColor (mapF construct σ) 16 = shownColor (mapF construct σ) 1 := by
      have h := hsolve 5 (by omega) 1 (by omega)
      norm_num at h
      exact h
    have hs52 : shownColor (mapF construct σ) 17 = 5 := by
      have h := hsolve 5 (by omega) 2 (by omega)
      norm_num at h
      rw [hF21] at h
      exact h
    have hq5 : σ 15 / 3 < 8 := by have h := hqlt 5 (by omega); norm_num at h; exact h
    obtain ⟨f1, hf1, hg1, hx1⟩ := hsurj 5 (by omega) 1 (by omega)
    rw [homeColor_one] at hx1
    interval_cases f1 <;> norm_num at hx1 hg1
    · rw [hs50] at hx1
      omega
    · rw [hs51] at hx1
      rcases (show σ 15 / 3 / 2 % 2 = 0 ∨ σ 15 / 3 / 2 % 2 = 1 by omega) with h12 | h12
      · rw [hx1, h12]
      · exfalso
        obtain ⟨f0, hf0, hg0, hx0⟩ := hsurj 5 (by omega) 0 (by omega)
        rw [homeColor_zero] at hx0
        have hx : σ 15 / 3 / 4 = 1 := by
          interval_cases f0 <;> norm_num at hx0 hg0
          · rw [hs50] at hx0
            omega
          · rw [hs51, hx1, h12] at hx0
            omega
          · rw [hs52] at hx0
            omega
        obtain ⟨f2, hf2, hg2, hx2⟩ := hsurj 5 (by omega) 2 (by omega)
        rw [homeColor_two] at hx2
        have hz : σ 15 / 3 % 2 = 1 := by
          interval_cases f2 <;> norm_num at hx2 hg2
          · rw [hs50] at hx2
            omega
          · rw [hs51, hx1, h12] at hx2
            omega
          · rw [hs52] at hx2
            omega
        have h57 := cubePerm_q_inj hQ 5 (by omega) 7 (by omega) (by
          norm_num
          rw [h21]
          omega)
        omega
    · rw [hs52] at hx1
      omega
  -- the down face color: slot 2 shows color 4
  have hcc : shownColor (mapF construct σ) 2 = 4 := by
    have hs60 : shownColor (mapF construct σ) 18 = 1 := by
      have h := hsolve 6 (by omega) 0 (by omega)
      norm_num at h
      rw [hF01] at h
      exact h
    have hs61 : shownColor (mapF construct σ) 19 = 3 := by
      have h := hsolve 6 (by omega) 1 (by omega)
      norm_num at h
      rw [hF11] at h
      exact h
    have hs62 : shownColor (mapF construct σ) 20 = shownColor (mapF construct σ) 2 := by
      have h := hsolve 6 (by omega) 2 (by omega)
      norm_num at h
      exact h
    have hq6 : σ 18 / 3 < 8 := by have h := hqlt 6 (by omega); norm_num at h; exact h
    obtain ⟨f2, hf2, hg2, hx2⟩ := hsurj 6 (by omega) 2 (by omega)
    rw [homeColor_two] at hx2
    interval_cases f2 <;> norm_num at hx2 hg2
    · rw [hs60] at hx2
      omega
    · rw [hs61] at hx2
      omega
    · rw [hs62] at hx2
      rcases (show σ 18 / 3 % 2 = 0 ∨ σ 18 / 3 % 2 = 1 by omega) with h22' | h22'
      · rw [hx2, h22']
      · exfalso
        obtain ⟨f0, hf0, hg0, hx0⟩ := hsurj 6 (by omega) 0 (by omega)
        rw [homeColor_zero] at hx0
        have hx : σ 18 / 3 / 4 = 1 := by
          interval_cases f0 <;> norm_num at hx0 hg0
          · rw [hs60] at hx0
            omega
          · rw [hs61] at hx0
            omega
          · rw [hs62, hx2, h22'] at hx0
            omega
        obtain ⟨f1, hf1, hg1, hx1⟩ := hsurj 6 (by omega) 1 (by omega)
        rw [homeColor_one] at hx1
        have hy : σ 18 / 3 / 2 % 2 = 1 := by
          interval_cases f1 <;> norm_num at hx1 hg1
          · rw [hs60] at hx1
            omega
          · rw [hs61] at hx1
            omega
          · rw [hs62, hx2, h22'] at hx1
            omega
        have h67 := cubePerm_q_inj hQ 6 (by omega) 7 (by omega) (by
          norm_num
          rw [h21]
          omega)
        omega
  -- every slot holds its own home facelet
  have hgen : ∀ c < 8, ∀ f < 3, σ (3 * c + f) = 3 * c + f := by
    intro c hc
    have hT0 : shownColor (mapF construct σ) (3 * c) = c / 4 := by
      have h := hsolve c hc 0 (by omega)
      norm_num at h
      by_cases hx4 : c / 4 = 0
      · rw [hx4] at h ⊢
        norm_num at h
        rw [ha] at h
        exact h
      · have hx4' : c / 4 = 1 := by omega
        rw [hx4'] at h ⊢
        norm_num at h
        rw [hF01] at h
        exact h
    have hT1 : shownColor (mapF construct σ) (3 * c + 1) = 2 + c / 2 % 2 := by
      have h := hsolve c hc 1 (by omega)
      norm_num at h
      by_cases hy2 : c / 2 % 2 = 0
      · rw [hy2] at h ⊢
        norm_num at h
        rw [hb] at h
        exact h
      · have hy2' : c / 2 % 2 = 1 := by omega
        rw [hy2'] at h ⊢
        norm_num at h
        rw [hF11] at h
        exact h
    have hT2 : shownColor (mapF construct σ) (3 * c + 2) = 4 + c % 2 := by
      have h := hsolve c hc 2 (by omega)
      norm_num at h
      by_cases hz2 : c % 2 = 0
      · rw [hz2] at h ⊢
        norm_num at h
        rw [hcc] at h
        exact h
      · have hz2' : c % 2 = 1 := by omega
        rw [hz2'] at h ⊢
        norm_num at h
        rw [hF21] at h
        exact h
    have hqc8 : σ (3 * c) / 3 < 8 := by
      have h := hqlt c hc
      norm_num at h
      exact h
    obtain ⟨f0, hf0, hg0, hx0⟩ := hsurj c hc 0 (by omega)
    rw [homeColor_zero] at hx0
    have hxc : σ (3 * c) / 3 / 4 = c / 4 ∧ σ (3 * c) % 3 = 0 := by
      interval_cases f0 <;> norm_num at hx0 hg0
      · rw [hT0] at hx0
        exact ⟨hx0.symm, hg0⟩
      · rw [hT1] at hx0
        omega
      · rw [hT2] at hx0
        omega
    obtain ⟨f1, hf1, hg1, hx1⟩ := hsurj c hc 1 (by omega)
    rw [homeColor_one] at hx1
    have hyc : σ (3 * c) / 3 / 2 % 2 = c / 2 % 2 ∧ σ (3 * c + 1) % 3 = 1 := by
      interval_cases f1 <;> norm_num at hx1 hg1
      · rw [hT0] at hx1
        omega
      · rw [hT1] at hx1
        exact ⟨by omega, hg1⟩
      · rw [hT2] at hx1
        omega
    obtain ⟨f2, hf2, hg2, hx2⟩ := hsurj c hc 2 (by omega)
    rw [homeColor_two] at hx2
    have hzc : σ (3 * c) / 3 % 2 = c % 2 ∧ σ (3 * c + 2) % 3 = 2 := by
      interval_cases f2 <;> norm_num at hx2 hg2
      · rw [hT0] at hx2
        omega
      · rw [hT1] at hx2
        omega
      · rw [hT2] at hx2
        exact ⟨by omega, hg2⟩
    have hqc : σ (3 * c) / 3 = c := by omega
    have hb0 := cubePerm_block_repr hQ c hc 0 (by omega)
    have hb1 := cubePerm_block_repr hQ c hc 1 (by omega)
    have hb2 := cubePerm_block_repr hQ c hc 2 (by omega)
    norm_num at hb0 hb1 hb2
    intro f hf
    have hb0' : σ (3 * c + 0) = σ (3 * c) := by norm_num
    interval_cases f <;> omega
  -- assemble the state equality
  apply state_ext hslen construct_length
  intro i hi
  rw [hS i hi]
  have h := hgen (i / 3) (by omega) (i % 3) (by omega)
  rw [show 3 * (i / 3) + i % 3 = i from by omega] at h
  rw [h]

lemma solved_reachable_eq_construct {s : State} (h : Reachable construct s)
    (hs : is_solved s = true) : s = construct := by
  obtain ⟨n, ms, hlen, hval, hrep⟩ := h
  obtain ⟨σ, hQ, hmap⟩ := replay_construct_mapF ms hval
  rw [← hrep, hmap] at hs ⊢
  exact solved_mapF_eq hQ hs

lemma slot_num_lt : ∀ a < 2, ∀ b < 2, ∀ c < 2, ∀ f < 3, get_slot_num a b c f < 24 := by decide

/-! ## BFS metatheory -/

lemma keys_length (ps : List Entry) : (keys ps).length = ps.length := by
  simp [keys]

lemma mem_keys_iff {ps : List Entry} {v : State} :
    v ∈ keys ps ↔ ∃ e ∈ ps, e.1 = v := by
  simp only [keys, List.mem_map]

lemma lookup_eq_none_iff {ps : List Entry} {v : State} :
    lookup ps v = none ↔ v ∉ keys ps := by
  rw [lookup, List.find?_eq_none]
  constructor
  · intro h hv
    obtain ⟨e, he, rfl⟩ := mem_keys_iff.mp hv
    exact h e he (by simp)
  · intro hv e he hbeq
    exact hv (mem_keys_iff.mpr ⟨e, he, beq_iff_eq.mp hbeq⟩)

lemma lookup_some_mem {ps : List Entry} {v : State} {e : Entry}
    (h : lookup ps v = some e) : e ∈ ps ∧ e.1 = v := by
  have hp := List.find?_some h
  exact ⟨List.mem_of_find?_eq_some h, beq_iff_eq.mp hp⟩

lemma lookup_isSome_of_mem {ps : List Entry} {v : State} (h : v ∈ keys ps) :
    ∃ e, lookup ps v = some e ∧ e.1 = v := by
  cases he : lookup ps v with
  | none => exact absurd (lookup_eq_none_iff.mp he) (by simp [h])
  | some e => exact ⟨e, rfl, (lookup_some_mem he).2⟩

lemma expand_nil (u : State) (fr : List State) (ps : List Entry) :
    expand u [] fr ps = (fr, ps) := rfl

lemma expand_cons (u : State) (m : Int) (ms : List Int) (fr : List State) (ps : List Entry) :
    expand u (m :: ms) fr ps =
      match lookup ps (apply_move u m) with
      | some _ => expand u ms fr ps
      | none => expand u ms (fr ++ [apply_move u m]) ((apply_move u m, u, m) :: ps) := by
  show expand u ms _ _ = _
  cases lookup ps (apply_move u m) <;> rfl

/-- Every state reachable from a 24-slot state reads its slots through a
structured permutation of the start state's slots. -/
lemma replay_mapF {start : State} (h24 : start.length = 24) (ms : List Int)
    (hval : ∀ m ∈ ms, 0 ≤ m ∧ m < 6) :
    ∃ σ, CubePerm σ ∧ replay start ms = mapF start σ := by
  induction ms using List.reverseRecOn with
  | nil => exact ⟨fun i => i, cubePerm_id, (getD_range_self h24).symm⟩
  | append_singleton ms m ih =>
    obtain ⟨σ, hQ, hrep⟩ := ih (fun x hx => hval x (by simp [hx]))
    obtain ⟨mn, hmn, rfl⟩ := valid_move_cast (hval m (by simp))
    refine ⟨fun i => σ (Move mn i), cubePerm_comp_move hQ mn hmn, ?_⟩
    rw [replay_append, hrep]
    show apply_move (mapF start σ) (mn : Int) = _
    rw [apply_move_valid _ mn hmn]
    unfold mapF
    apply List.map_congr_left
    intro i hi
    rw [getD_map_range _ _ (move_lt mn hmn i (List.mem_range.mp hi))]

/-- A duplicate-free list of states reachable from a 24-slot start has at
most `24 ^ 24` elements: each one is determined by a slot permutation. -/
lemma keys_card_le {start : State} (h24 : start.length = 24) {ps : List Entry}
    (hnd : (keys ps).Nodup) (hreach : ∀ v ∈ keys ps, Reachable start v) :
    ps.length ≤ 24 ^ 24 := by
  classical
  set F : (Fin 24 → Fin 24) → State :=
    fun τ => (List.finRange 24).map (fun i => start.getD (τ i).val 0) with hF
  have himg : ∀ v ∈ keys ps, v ∈ Finset.image F Finset.univ := by
    intro v hv
    obtain ⟨n, ms, hlen, hvalm, hrep⟩ := hreach v hv
    obtain ⟨σ, hQ, hmap⟩ := replay_mapF h24 ms hvalm
    have hvm : v = mapF start σ := by rw [← hrep, hmap]
    refine Finset.mem_image.mpr ⟨fun i => ⟨σ i.val, hQ.1 i.val i.isLt⟩, Finset.mem_univ _, ?_⟩
    rw [hvm, hF]
    unfold mapF
    rw [← List.map_coe_finRange 24, List.map_map]
    rfl
  have hsub : (keys ps).toFinset ⊆ Finset.image F Finset.univ := by
    intro v hv
    exact himg v (List.mem_toFinset.mp hv)
  have hcard := Finset.card_le_card hsub
  rw [List.toFinset_card_of_nodup hnd, keys_length] at hcard
  calc ps.length ≤ (Finset.image F Finset.univ).card := hcard
    _ ≤ Finset.univ.card := Finset.card_image_le
    _ = 24 ^ 24 := by rw [Finset.card_univ, Fintype.card_fun, Fintype.card_fin]

lemma keys_cons (e : Entry) (ps : List Entry) : keys (e :: ps) = e.1 :: keys ps := rfl

/-- One iteration of the expansion loop preserves the mid-expansion
invariant, in both the already-visited and the newly-discovered branch. -/
lemma expand_step {start u : State} {d : Nat} {m : Int} {rest : List Int}
    {fr : List State} {ps : List Entry} {D : State → Nat}
    (hm : m ∈ valid_moves) (hmr : m ∉ rest)
    (hinv : ExpandInv start u d (m :: rest) fr ps D) :
    (∀ e, lookup ps (apply_move u m) = some e → ExpandInv start u d rest fr ps D) ∧
    (lookup ps (apply_move u m) = none →
      ExpandInv start u d rest (fr ++ [apply_move u m]) ((apply_move u m, u, m) :: ps)
        (Function.update D (apply_move u m) (d + 1))) := by
  obtain ⟨mn, hmn6, hmcast⟩ := valid_move_cast (mem_valid_moves.mp hm)
  constructor
  · intro e hlk
    have hv_mem : apply_move u m ∈ keys ps := by
      obtain ⟨hemem, he1⟩ := lookup_some_mem hlk
      exact mem_keys_iff.mpr ⟨e, hemem, he1⟩
    exact { hinv with
      processed := by
        intro m' hm' hm'r
        by_cases hmm : m' = m
        · subst hmm
          exact hv_mem
        · refine hinv.processed m' hm' ?_
          intro hcon
          rcases List.mem_cons.mp hcon with h | h
          · exact hmm h
          · exact hm'r h }
  · intro hlk
    have hv_not : apply_move u m ∉ keys ps := lookup_eq_none_iff.mp hlk
    set v : State := apply_move u m with hvdef
    have hvu : v ≠ u := fun h => hv_not (h ▸ hinv.u_mem)
    have hvstart : v ≠ start := fun h => hv_not (h ▸ hinv.start_mem)
    have hv_notin_fr : v ∉ fr := fun h => hv_not (hinv.fr_sub v h)
    have hDold : ∀ w ∈ keys ps, Function.update D v (d + 1) w = D w := by
      intro w hw
      exact Function.update_noteq (fun h => hv_not (by rw [← h]; exact hw)) _ _
    have hDv : Function.update D v (d + 1) v = d + 1 := Function.update_same _ _ _
    have hreach_u : ReachIn start u d := by
      have h := hinv.keys_least u hinv.u_mem
      rw [hinv.d_u] at h
      exact h.1
    obtain ⟨tl, nw, hfr_eq, htl_sorted, htl_vals, hnw_vals⟩ := hinv.fr_split
    refine
      { keys_nodup := by
          rw [keys_cons, List.nodup_cons]
          exact ⟨hv_not, hinv.keys_nodup⟩
        start_mem := by
          rw [keys_cons]
          exact List.mem_cons_of_mem _ hinv.start_mem
        d_start := by
          rw [Function.update_noteq (Ne.symm hvstart), hinv.d_start]
        entry_shape := ?_
        keys_least := ?_
        d_bound := ?_
        u_mem := by
          rw [keys_cons]
          exact List.mem_cons_of_mem _ hinv.u_mem
        d_u := by
          rw [Function.update_noteq (Ne.symm hvu), hinv.d_u]
        u_not_solved := hinv.u_not_solved
        u_notin_fr := by
          intro h
          rcases List.mem_append.mp h with h | h
          · exact hinv.u_notin_fr h
          · simp only [List.mem_singleton] at h
            exact hvu h.symm
        fr_sub := ?_
        fr_nodup := by
          rw [List.nodup_append]
          exact ⟨hinv.fr_nodup, List.nodup_singleton v,
            fun a ha hb => by
              simp only [List.mem_singleton] at hb
              exact hv_notin_fr (hb ▸ ha)⟩
        fr_split := ?_
        closed_old := ?_
        processed := ?_
        not_solved_old := ?_
        complete_d := by
          intro w n hw hn
          rw [keys_cons]
          exact List.mem_cons_of_mem _ (hinv.complete_d w n hw hn) }
    · -- entry_shape
      intro e he hne
      rcases List.mem_cons.mp he with rfl | he'
      · refine ⟨by rw [keys_cons]; exact List.mem_cons_of_mem _ hinv.u_mem,
          ⟨mn, hmn6, hmcast, by rw [← hmcast]⟩, ?_⟩
        show Function.update D v (d + 1) v = Function.update D v (d + 1) u + 1
        rw [hDv, Function.update_noteq (Ne.symm hvu), hinv.d_u]
      · obtain ⟨hp, hshape, hd⟩ := hinv.entry_shape e he' hne
        have he1k : e.1 ∈ keys ps := mem_keys_iff.mpr ⟨e, he', rfl⟩
        refine ⟨by rw [keys_cons]; exact List.mem_cons_of_mem _ hp, hshape, ?_⟩
        rw [hDold _ he1k, hDold _ hp]
        exact hd
    · -- keys_least
      intro w hw
      rcases List.mem_cons.mp (by rw [keys_cons] at hw; exact hw) with rfl | hw'
      · rw [hDv]
        constructor
        · have := reachIn_step hreach_u (mem_valid_moves.mp hm)
          exact this
        · intro n hn
          by_contra hlt
          push_neg at hlt
          exact hv_not (hinv.complete_d v n hn (by omega))
      · rw [hDold _ hw']
        exact hinv.keys_least w hw'
    · -- d_bound
      intro w hw
      rcases List.mem_cons.mp (by rw [keys_cons] at hw; exact hw) with rfl | hw'
      · rw [hDv]
        have := hinv.d_bound u hinv.u_mem
        rw [hinv.d_u] at this
        simp only [List.length_cons]
        omega
      · rw [hDold _ hw']
        have := hinv.d_bound w hw'
        simp only [List.length_cons]
        omega
    · -- fr_sub
      intro w hw
      rw [keys_cons]
      rcases List.mem_append.mp hw with h | h
      · exact List.mem_cons_of_mem _ (hinv.fr_sub w h)
      · simp only [List.mem_singleton] at h
        subst h
        exact List.mem_cons_self _ _
    · -- fr_split
      refine ⟨tl, nw ++ [v], by rw [hfr_eq, List.append_assoc], ?_, ?_, ?_⟩
      · -- tl still sorted under the updated depth
        have htl_sub : ∀ w ∈ tl, w ∈ fr := by
          intro w hw
          rw [hfr_eq]
          exact List.mem_append.mpr (Or.inl hw)
        refine List.Pairwise.imp_of_mem ?_ htl_sorted
        intro a b ha hb hab
        rw [Function.update_noteq (fun h => hv_notin_fr (by rw [← h]; exact htl_sub a ha)),
          Function.update_noteq (fun h => hv_notin_fr (by rw [← h]; exact htl_sub b hb))]
        exact hab
      · intro w hw
        have hwfr : w ∈ fr := by
          rw [hfr_eq]
          exact List.mem_append.mpr (Or.inl hw)
        rw [Function.update_noteq (fun h => hv_notin_fr (by rw [← h]; exact hwfr))]
        exact htl_vals w hw
      · intro w hw
        rcases List.mem_append.mp hw with h | h
        · have hwfr : w ∈ fr := by
            rw [hfr_eq]
            exact List.mem_append.mpr (Or.inr h)
          rw [Function.update_noteq (fun hh => hv_notin_fr (by rw [← hh]; exact hwfr))]
          exact hnw_vals w h
        · simp only [List.mem_singleton] at h
          subst h
          exact hDv
    · -- closed_old
      intro w hw hwfr hwu mn' hmn'
      rw [keys_cons] at hw ⊢
      rcases List.mem_cons.mp hw with rfl | hw'
      · exact absurd (List.mem_append.mpr (Or.inr (by simp))) hwfr
      · have hwfr' : w ∉ fr := fun h => hwfr (List.mem_append.mpr (Or.inl h))
        exact List.mem_cons_of_mem _ (hinv.closed_old w hw' hwfr' hwu mn' hmn')
    · -- processed
      intro m' hm' hm'r
      rw [keys_cons]
      by_cases hmm : m' = m
      · subst hmm
        exact List.mem_cons_self _ _
      · refine List.mem_cons_of_mem _ (hinv.processed m' hm' ?_)
        intro hcon
        rcases List.mem_cons.mp hcon with h | h
        · exact hmm h
        · exact hm'r h
    · -- not_solved_old
      intro w hw hwfr hwu
      rcases List.mem_cons.mp (by rw [keys_cons] at hw; exact hw) with rfl | hw'
      · exact absurd (List.mem_append.mpr (Or.inr (by simp))) hwfr
      · have hwfr' : w ∉ fr := fun h => hwfr (List.mem_append.mpr (Or.inl h))
        exact hinv.not_solved_old w hw' hwfr' hwu

/-- The full expansion loop preserves the invariant, counting the pushes. -/
lemma expand_fold {start u : State} {d : Nat} :
    ∀ (ms : List Int) (fr : List State) (ps : List Entry) (D : State → Nat),
      ms.Nodup → (∀ m ∈ ms, m ∈ valid_moves) →
      ExpandInv start u d ms fr ps D →
      ∃ k fr' ps' D', expand u ms fr ps = (fr', ps') ∧ ExpandInv start u d [] fr' ps' D' ∧
        ps'.length = ps.length + k ∧ fr'.length = fr.length + k := by
  intro ms
  induction ms with
  | nil =>
    intro fr ps D _ _ h
    exact ⟨0, fr, ps, D, rfl, h, rfl, rfl⟩
  | cons m rest ih =>
    intro fr ps D hnd hval hinv
    have hm : m ∈ valid_moves := hval m (by simp)
    have hmr : m ∉ rest := (List.nodup_cons.mp hnd).1
    have hstep := expand_step hm hmr hinv
    rw [expand_cons]
    cases hlk : lookup ps (apply_move u m) with
    | some e =>
      exact ih fr ps D (List.nodup_cons.mp hnd).2 (fun x hx => hval x (by simp [hx]))
        (hstep.1 e hlk)
    | none =>
      obtain ⟨k, fr', ps', D', heq, hinv', hl1, hl2⟩ :=
        ih _ _ _ (List.nodup_cons.mp hnd).2 (fun x hx => hval x (by simp [hx])) (hstep.2 hlk)
      refine ⟨k + 1, fr', ps', D', heq, hinv', ?_, ?_⟩
      · simp only [List.length_cons] at hl1
        omega
      · simp only [List.length_append, List.length_singleton] at hl2
        omega

/-- Popping an unsolved head of the frontier starts a (trivially) partially
expanded state. -/
lemma searchInv_pop {start u : State} {fr : List State} {ps : List Entry} {D : State → Nat}
    (hinv : SearchInv start (u :: fr) ps D) (hu : is_solved u = false) :
    ExpandInv start u (D u) valid_moves fr ps D := by
  have hu_mem : u ∈ keys ps := hinv.fr_sub u (by simp)
  have hu_notin : u ∉ fr := (List.nodup_cons.mp hinv.fr_nodup).1
  refine
    { keys_nodup := hinv.keys_nodup
      start_mem := hinv.start_mem
      d_start := hinv.d_start
      entry_shape := hinv.entry_shape
      keys_least := hinv.keys_least
      d_bound := hinv.d_bound
      u_mem := hu_mem
      d_u := rfl
      u_not_solved := hu
      u_notin_fr := hu_notin
      fr_sub := fun v hv => hinv.fr_sub v (List.mem_cons_of_mem _ hv)
      fr_nodup := (List.nodup_cons.mp hinv.fr_nodup).2
      fr_split := ⟨fr, [], (List.append_nil fr).symm, (List.pairwise_cons.mp hinv.fr_sorted).2,
        ?_, by simp⟩
      closed_old := fun v hv hvfr hvu mn hmn =>
        hinv.closed v hv (by
          intro hcon
          rcases List.mem_cons.mp hcon with h | h
          · exact hvu h
          · exact hvfr h) mn hmn
      processed := fun m' hm' hm'r => absurd hm' hm'r
      not_solved_old := fun v hv hvfr hvu =>
        hinv.not_solved v hv (by
          intro hcon
          rcases List.mem_cons.mp hcon with h | h
          · exact hvu h
          · exact hvfr h)
      complete_d := fun w n hw hn =>
        hinv.complete w n hw (by
          intro h hh
          simp only [List.head?_cons, Option.mem_def, Option.some.injEq] at hh
          rw [← hh]
          exact hn) }
  intro v hv
  have hlow : D u ≤ D v := (List.pairwise_cons.mp hinv.fr_sorted).1 v hv
  have hupp : D v ≤ D u + 1 :=
    hinv.fr_window u (by simp) v (List.mem_cons_of_mem _ hv)
  omega

/-- After the six moves are expanded, the loop invariant holds again. -/
lemma expandInv_to_searchInv {start u : State} {d : Nat} {fr : List State}
    {ps : List Entry} {D : State → Nat}
    (hinv : ExpandInv start u d [] fr ps D) : SearchInv start fr ps D := by
  obtain ⟨tl, nw, hfr_eq, htl_sorted, htl_vals, hnw_vals⟩ := hinv.fr_split
  have hfr_vals : ∀ v ∈ fr, D v = d ∨ D v = d + 1 := by
    intro v hv
    rw [hfr_eq] at hv
    rcases List.mem_append.mp hv with h | h
    · exact htl_vals v h
    · exact Or.inr (hnw_vals v h)
  have hclosed_all : ∀ v ∈ keys ps, v ∉ fr → ∀ mn : Nat, mn < 6 →
      apply_move v (mn : Int) ∈ keys ps := by
    intro v hv hvfr mn hmn
    by_cases hvu : v = u
    · subst hvu
      refine hinv.processed (mn : Int) (mem_valid_moves.mpr ⟨by omega, by omega⟩) (by simp)
    · exact hinv.closed_old v hv hvfr hvu mn hmn
  refine
    { keys_nodup := hinv.keys_nodup
      start_mem := hinv.start_mem
      d_start := hinv.d_start
      entry_shape := hinv.entry_shape
      keys_least := hinv.keys_least
      d_bound := hinv.d_bound
      fr_sub := hinv.fr_sub
      fr_nodup := hinv.fr_nodup
      fr_sorted := ?_
      fr_window := ?_
      closed := hclosed_all
      not_solved := ?_
      complete := ?_ }
  · -- sorted
    rw [hfr_eq, List.pairwise_append]
    refine ⟨htl_sorted, ?_, ?_⟩
    · refine List.pairwise_of_forall_mem_list ?_
      intro a ha b hb
      rw [hnw_vals a ha, hnw_vals b hb]
    · intro a ha b hb
      have hb' := hnw_vals b hb
      rcases htl_vals a ha with h | h <;> omega
  · -- window
    intro a ha b hb
    rcases hfr_vals a ha with h | h <;> rcases hfr_vals b hb with h' | h' <;> omega
  · -- not_solved
    intro v hv hvfr
    by_cases hvu : v = u
    · subst hvu
      exact hinv.u_not_solved
    · exact hinv.not_solved_old v hv hvfr hvu
  · -- complete
    intro w n hw hcond
    cases hfr_shape : fr with
    | nil =>
      -- the frontier emptied: the key set is closed, so it contains every
      -- reachable state
      clear hcond
      induction n generalizing w with
      | zero =>
        have hsw : start = w := reachIn_zero.mp hw
        rw [← hsw]
        exact hinv.start_mem
      | succ n ihn =>
        obtain ⟨w', m, hw', hmv, rfl⟩ := reachIn_succ hw
        obtain ⟨mn, hmn6, rfl⟩ := valid_move_cast hmv
        exact hclosed_all w' (ihn w' hw') (by rw [hfr_shape]; simp) mn hmn6
    | cons h t =>
      have hn_le : n ≤ D h := hcond h (by rw [hfr_shape]; rfl)
      have hh_fr : h ∈ fr := by rw [hfr_shape]; simp
      rcases hfr_vals h hh_fr with hDh | hDh
      · exact hinv.complete_d w n hw (by omega)
      · by_cases hnd : n ≤ d
        · exact hinv.complete_d w n hw hnd
        · have hn_eq : n = d + 1 := by omega
          subst hn_eq
          obtain ⟨w', m, hw', hmv, rfl⟩ := reachIn_succ hw
          obtain ⟨mn, hmn6, rfl⟩ := valid_move_cast hmv
          have hw'_keys : w' ∈ keys ps := hinv.complete_d w' d hw' (by omega)
          have hDw' : D w' ≤ d := (hinv.keys_least w' hw'_keys).2 hw'
          -- every frontier element now sits at depth d + 1
          have hall : ∀ v ∈ fr, D v = d + 1 := by
            intro v hv
            rw [hfr_eq] at hv
            rcases List.mem_append.mp hv with hvtl | hvnw
            · cases htl_shape : tl with
              | nil =>
                rw [htl_shape] at hvtl
                simp at hvtl
              | cons a tl' =>
                have hha : a = h := by
                  rw [hfr_eq, htl_shape] at hfr_shape
                  simpa using congrArg (fun l => l.head?) hfr_shape
                rw [htl_shape] at hvtl
                rcases List.mem_cons.mp hvtl with rfl | hvtl'
                · rw [hha]
                  exact hDh
                · have hle := (List.pairwise_cons.mp (htl_shape ▸ htl_sorted)).1 v hvtl'
                  rw [hha, hDh] at hle
                  rcases htl_vals v (htl_shape ▸ List.mem_cons_of_mem a hvtl') with h' | h'
                  · omega
                  · exact h'
            · exact hnw_vals v hvnw
          have hw'_notfr : w' ∉ fr := by
            intro hcon
            have := hall w' hcon
            omega
          exact hclosed_all w' hw'_keys hw'_notfr mn hmn6

/-- The seed satisfies the loop invariant with depth 0 everywhere. -/
lemma searchInv_init {start : State} :
    SearchInv start [start] [(start, start, 6)] (fun _ => 0) := by
  refine
    { keys_nodup := by simp [keys]
      start_mem := by simp [keys]
      d_start := rfl
      entry_shape := ?_
      keys_least := ?_
      d_bound := by
        intro v _
        simp
      fr_sub := by
        intro v hv
        simp only [List.mem_singleton] at hv
        subst hv
        simp [keys]
      fr_nodup := List.nodup_singleton start
      fr_sorted := List.pairwise_singleton _ _
      fr_window := by
        intro a _ b _
        omega
      closed := ?_
      not_solved := ?_
      complete := ?_ }
  · intro e he hne
    simp only [List.mem_singleton] at he
    subst he
    exact absurd rfl hne
  · intro v hv
    have hv' : v = start := by simpa [keys] using hv
    subst hv'
    exact ⟨reachIn_self v, fun n _ => Nat.zero_le n⟩
  · intro v hv hvfr
    have hv' : v = start := by simpa [keys] using hv
    exact absurd (by simp [hv']) hvfr
  · intro v hv hvfr
    have hv' : v = start := by simpa [keys] using hv
    exact absurd (by simp [hv']) hvfr
  · intro w n hw hcond
    have hn0 : n ≤ 0 := hcond start rfl
    have hn : n = 0 := by omega
    subst hn
    have hsw : start = w := reachIn_zero.mp hw
    rw [← hsw]
    simp [keys]

/-- Master lemma for the BFS loop: when a solved state is reachable and the
fuel dominates the measure, the loop stops on a solved state popped at
minimal depth, and the invariant still holds for the final parent map. -/
lemma bfs_loop_spec {start : State} (hs24 : start.length = 24)
    {w0 : State} {n0 : Nat} (hw0 : ReachIn start w0 n0) (hw0s : is_solved w0 = true) :
    ∀ (fuel : Nat) (fr : List State) (ps : List Entry) (D : State → Nat),
      SearchInv start fr ps D →
      (24 ^ 24 - ps.length) * 7 + fr.length + 1 ≤ fuel →
      ∃ dst ps' D' fr', bfs_loop fuel fr ps = (some dst, ps') ∧ is_solved dst = true ∧
        SearchInv start fr' ps' D' ∧ dst ∈ keys ps' ∧
        ∀ n w, ReachIn start w n → is_solved w = true → D' dst ≤ n := by
  intro fuel
  induction fuel with
  | zero =>
    intro fr ps D _ hle
    omega
  | succ fuel ih =>
    intro fr ps D hinv hle
    cases fr with
    | nil =>
      exfalso
      have hw0k := hinv.complete w0 n0 hw0 (by intro h hh; simp at hh)
      have := hinv.not_solved w0 hw0k (by simp)
      rw [hw0s] at this
      exact absurd this (by decide)
    | cons u fr' =>
      by_cases hu : is_solved u = true
      · refine ⟨u, ps, D, u :: fr', ?_, hu, hinv, hinv.fr_sub u (by simp), ?_⟩
        · show bfs_loop (fuel + 1) (u :: fr') ps = (some u, ps)
          simp [bfs_loop, hu]
        · intro n w hw hws
          by_contra hlt
          push_neg at hlt
          have hwk := hinv.complete w n hw (by
            intro h hh
            simp only [List.head?_cons, Option.mem_def, Option.some.injEq] at hh
            rw [← hh]
            omega)
          have hwfr : w ∈ u :: fr' := by
            by_contra hnot
            have := hinv.not_solved w hwk hnot
            rw [hws] at this
            exact absurd this (by decide)
          have hDuw : D u ≤ D w := by
            rcases List.mem_cons.mp hwfr with rfl | hw'
            · exact le_refl _
            · exact (List.pairwise_cons.mp hinv.fr_sorted).1 w hw'
          have hDw : D w ≤ n := (hinv.keys_least w hwk).2 hw
          omega
      · have hu' : is_solved u = false := by
          rw [Bool.not_eq_true] at hu
          exact hu
        have hexp0 := searchInv_pop hinv hu'
        obtain ⟨k, fr1, ps1, D1, heq, hinv1, hlp, hlf⟩ :=
          expand_fold valid_moves fr' ps D (by decide) (fun m hm => hm) hexp0
        have hinv1' := expandInv_to_searchInv hinv1
        have hps1 : ps1.length ≤ 24 ^ 24 := keys_card_le hs24 hinv1'.keys_nodup
          (fun v hv => ⟨D1 v, (hinv1'.keys_least v hv).1⟩)
        have hlen_cons : (u :: fr').length = fr'.length + 1 := rfl
        obtain ⟨dst, ps', D', frr, heq2, hdsts, hinv2, hdstk, hmin⟩ :=
          ih fr1 ps1 D1 hinv1' (by omega)
        refine ⟨dst, ps', D', frr, ?_, hdsts, hinv2, hdstk, hmin⟩
        show bfs_loop (fuel + 1) (u :: fr') ps = (some dst, ps')
        have hstep : bfs_loop (fuel + 1) (u :: fr') ps =
            bfs_loop fuel (expand u valid_moves fr' ps).1 (expand u valid_moves fr' ps).2 := by
          simp [bfs_loop, hu']
        rw [hstep, heq]
        exact heq2

/-- Reconstruction correctness: from any key, `backtrack` returns the moves
of the parent chain, which replay from `start` to that key in exactly its
depth. -/
lemma backtrack_spec {start : State} {ps : List Entry} {D : State → Nat} {fr : List State}
    (hinv : SearchInv start fr ps D) :
    ∀ (fuel : Nat) (v : State), v ∈ keys ps → D v < fuel → ∀ acc : List Int,
      ∃ ms, backtrack fuel ps (lookup ps v) start acc = ms ++ acc ∧
        ms.length = D v ∧ (∀ m ∈ ms, 0 ≤ m ∧ m < 6) ∧ replay start ms = v := by
  intro fuel
  induction fuel with
  | zero =>
    intro v _ h
    omega
  | succ fuel ih =>
    intro v hv hfuel acc
    obtain ⟨e, he_lk, he1⟩ := lookup_isSome_of_mem hv
    rw [he_lk]
    by_cases hvs : v = start
    · subst hvs
      have hbeq : (e.1 == v) = true := beq_iff_eq.mpr he1
      refine ⟨[], ?_, ?_, by simp, rfl⟩
      · show backtrack (fuel + 1) ps (some e) v acc = [] ++ acc
        simp [backtrack, hbeq]
      · simp [hinv.d_start]
    · have hes := hinv.entry_shape e (lookup_some_mem he_lk).1 (by rw [he1]; exact hvs)
      obtain ⟨hpmem, ⟨mn, hmn, hmv, happ⟩, hD⟩ := hes
      rw [he1] at hD happ
      obtain ⟨ms', hbt, hlen, hval, hrep⟩ := ih e.2.1 hpmem (by omega) (e.2.2 :: acc)
      have hbeq : (e.1 == start) = false := by
        rw [beq_eq_false_iff_ne, he1]
        exact hvs
      refine ⟨ms' ++ [e.2.2], ?_, ?_, ?_, ?_⟩
      · show backtrack (fuel + 1) ps (some e) start acc = (ms' ++ [e.2.2]) ++ acc
        rw [show backtrack (fuel + 1) ps (some e) start acc =
            backtrack fuel ps (lookup ps e.2.1) start (e.2.2 :: acc) from by
          simp [backtrack, hbeq]]
        rw [hbt, List.append_assoc]
        rfl
      · simp only [List.length_append, List.length_singleton, hlen]
        omega
      · intro x hx
        rcases List.mem_append.mp hx with h | h
        · exact hval x h
        · simp only [List.mem_singleton] at h
          subst h
          rw [hmv]
          constructor
          · exact Int.natCast_nonneg mn
          · exact_mod_cast hmn
      · rw [replay_append, hrep]
        show apply_move e.2.1 e.2.2 = v
        rw [hmv]
        exact happ.symm

/-- End-to-end specification of `get_solution` for start states reachable
from the constructed cube: the result replays to a solved state, uses only
valid moves, and no strictly shorter sequence from the start reaches any
solved state. -/
lemma get_solution_spec {start : State} (hreach : Reachable construct start) :
    is_solved (replay start (get_solution start)) = true ∧
      (∀ m ∈ get_solution start, 0 ≤ m ∧ m < 6) ∧
      ∀ n w, ReachIn start w n → is_solved w = true → (get_solution start).length ≤ n := by
  have hs24 : start.length = 24 := reachable_length construct_length hreach
  obtain ⟨n0, hn0⟩ := hreach
  have hrevc : ReachIn start construct n0 := reachIn_symm construct_length hn0
  obtain ⟨dst, ps', D', frr, heq, hdsts, hinv2, hdstk, hmin⟩ :=
    bfs_loop_spec hs24 hrevc is_solved_construct FUEL [start] [(start, start, 6)]
      (fun _ => 0) searchInv_init
      (by
        simp only [List.length_singleton]
        unfold FUEL
        omega)
  have hga : get_solution start = backtrack FUEL ps' (lookup ps' dst) start [] := by
    unfold get_solution
    rw [heq]
  have hps' : ps'.length ≤ 24 ^ 24 := keys_card_le hs24 hinv2.keys_nodup
    (fun v hv => ⟨D' v, (hinv2.keys_least v hv).1⟩)
  have hdb := hinv2.d_bound dst hdstk
  obtain ⟨ms, hbt, hlen, hval, hrep⟩ := backtrack_spec hinv2 FUEL dst hdstk
    (by unfold FUEL; omega) []
  have hsol : get_solution start = ms := by
    rw [hga, hbt, List.append_nil]
  refine ⟨?_, ?_, ?_⟩
  · rw [hsol, hrep]
    exact hdsts
  · rw [hsol]
    exact hval
  · intro n w hw hws
    rw [hsol, hlen]
    exact hmin n w hw hws

/-! ## Claim theorems -/

/-- C1, counterexample: the claimed convention `result[Move[m][i]] = s[i]`
fails on the code at the solved state, move `FC`, slot `i = 0`:
`apply_move` puts `oldSlots[Move[m][i]]` into slot `i`, which is the inverse
convention (the in-code comment above `Move` states the claimed direction,
but the loop of `apply_move` implements the other one). -/
theorem claim1_move_convention_cex :
    ¬ ((apply_move construct 0).getD (Move 0 0) 0 = construct.getD 0 0) := by decide

/-- C1, amended: for every state `s`, valid move `m` and slot `i < 24`, slot
`i` of `apply(s, m)` holds the facelet of slot `Move[m][i]` of the input;
equivalently `result[InverseMove[m][i]] = s[i]`, the facelet at slot `i` of
the input ends up at slot `InverseMove[m][i]` of the result, where
`InverseMove[m]` is the row of the opposite-direction move. -/
theorem claim1_move_convention_amended (s : State) (m : Int) (hm : m ∈ valid_moves)
    (i : Nat) (hi : i < 24) :
    (apply_move s m).getD i 0 = s.getD (Move m.toNat i) 0 ∧
    (apply_move s m).getD (Move (inverse_move m).toNat i) 0 = s.getD i 0 := by
  obtain ⟨mn, hmn, rfl⟩ := valid_move_cast (mem_valid_moves.mp hm)
  constructor
  · rw [Int.toNat_natCast]
    exact apply_move_getD s mn hmn i hi
  · rw [inverse_move_cast mn hmn, Int.toNat_natCast]
    have hinv6 : (if mn % 2 = 0 then mn + 1 else mn - 1) < 6 := by split <;> omega
    rw [apply_move_getD s mn hmn _ (move_lt _ hinv6 i hi), move_inv_move mn hmn i hi]

/-- Witness for C1's amended theorem at `s = construct`, `m = FC`, `i = 0`. -/
theorem claim1_move_convention_amended_witness :
    (0 : Int) ∈ valid_moves ∧ 0 < 24 ∧
      ((apply_move construct 0).getD 0 0 = construct.getD (Move (0 : Int).toNat 0) 0 ∧
        (apply_move construct 0).getD (Move (inverse_move 0).toNat 0) 0 = construct.getD 0 0) :=
  ⟨by decide, by decide, claim1_move_convention_amended construct 0 (by decide) 0 (by decide)⟩

/-- C4: for every valid move `m` and every 24-slot state `s`,
`apply(apply(s, m), inverse(m)) = s`, where `inverse` swaps each clockwise
move with its counter-clockwise counterpart. -/
theorem claim4_invertibility (s : State) (hs : s.length = 24) (m : Int)
    (hm : m ∈ valid_moves) : apply_move (apply_move s m) (inverse_move m) = s := by
  obtain ⟨mn, hmn, rfl⟩ := valid_move_cast (mem_valid_moves.mp hm)
  exact apply_apply_inverse_aux hs mn hmn

/-- Witness for C4 at `s = construct`, `m = FC`. -/
theorem claim4_invertibility_witness :
    construct.length = 24 ∧ (0 : Int) ∈ valid_moves ∧
      apply_move (apply_move construct 0) (inverse_move 0) = construct :=
  ⟨by decide, by decide, claim4_invertibility construct (by decide) 0 (by decide)⟩

/-- C5: `is_solved s` is true exactly when every slot's primary color equals
the primary color of the reference slot of its face axis (the other two
coordinates forced to 0); moreover `is_solved` reads only primary colors:
two states with the same primary colors on all 24 slots get the same
verdict. -/
theorem claim5_is_solved_spec (s : State) :
    (is_solved s = true ↔
      ∀ x < 2, ∀ y < 2, ∀ z < 2, ∀ f < 3,
        get_facelet_color (s.getD (get_slot_num x y z f) 0) =
          get_facelet_color (s.getD (get_slot_num (if f = 0 then x else 0)
            (if f = 1 then y else 0) (if f = 2 then z else 0) f) 0)) ∧
    ∀ t : State, (∀ i < 24, get_facelet_color (s.getD i 0) = get_facelet_color (t.getD i 0)) →
      is_solved s = is_solved t := by
  refine ⟨is_solved_iff s, fun t ht => ?_⟩
  rw [Bool.eq_iff_iff, is_solved_iff s, is_solved_iff t]
  constructor <;> intro h x hx y hy z hz f hf
  · rw [← ht _ (slot_num_lt x hx y hy z hz f hf),
      ← ht _ (slot_num_lt _ (by split <;> omega) _ (by split <;> omega) _ (by split <;> omega) f hf)]
    exact h x hx y hy z hz f hf
  · rw [ht _ (slot_num_lt x hx y hy z hz f hf),
      ht _ (slot_num_lt _ (by split <;> omega) _ (by split <;> omega) _ (by split <;> omega) f hf)]
    exact h x hx y hy z hz f hf

/-- C6: after table construction, each counter-clockwise row is the
functional inverse of its clockwise partner: for each of the three pairs
(`FC`/`FCC` = 0/1, `DC`/`DCC` = 2/3, `LC`/`LCC` = 4/5) and every slot `i`,
`CCW[CW[i]] = i`. -/
theorem claim6_ccw_is_inverse (k : Nat) (hk : k < 3) (i : Nat) (hi : i < 24) :
    Move (2 * k + 1) (Move (2 * k) i) = i := move_ccw_cw k hk i hi

/-- Witness for C6 at the `FC`/`FCC` pair, slot 5. -/
theorem claim6_ccw_is_inverse_witness :
    0 < 3 ∧ 5 < 24 ∧ Move (2 * 0 + 1) (Move (2 * 0) 5) = 5 :=
  ⟨by decide, by decide, claim6_ccw_is_inverse 0 (by decide) 5 (by decide)⟩

/-- C7: every state reachable from the constructed solved state carries the
same multiset of 24 facelet identities as the solved state — moves only
permute slot contents. -/
theorem claim7_multiset_conservation (s : State) (h : Reachable construct s) :
    (s : Multiset Nat) = (construct : Multiset Nat) := by
  obtain ⟨n, ms, hlen, hval, hrep⟩ := h
  rw [← hrep]
  exact Multiset.coe_eq_coe.mpr (replay_perm construct_length ms)

/-- Witness for C7 at `s = construct`. -/
theorem claim7_multiset_conservation_witness :
    (construct : Multiset Nat) = (construct : Multiset Nat) :=
  claim7_multiset_conservation construct ⟨0, reachIn_self construct⟩

/-- C8: each clockwise generator (`FC = 0`, `DC = 2`, `LC = 4`) has order 4:
applying it four times to any 24-slot state returns that state. -/
theorem claim8_generator_order_four (s : State) (hs : s.length = 24) (m : Int)
    (hm : m ∈ ([0, 2, 4] : List Int)) :
    apply_move (apply_move (apply_move (apply_move s m) m) m) m = s := by
  have hmv : ∃ k : Nat, k < 3 ∧ m = ((2 * k : Nat) : Int) := by
    simp only [List.mem_cons, List.not_mem_nil, or_false] at hm
    rcases hm with rfl | rfl | rfl
    · exact ⟨0, by omega, by norm_num⟩
    · exact ⟨1, by omega, by norm_num⟩
    · exact ⟨2, by omega, by norm_num⟩
  obtain ⟨k, hk, rfl⟩ := hmv
  have hk6 : 2 * k < 6 := by omega
  apply state_ext (apply_move_valid_length _ (2 * k) hk6) hs
  intro i hi
  rw [apply_move_getD _ (2 * k) hk6 i hi,
    apply_move_getD _ (2 * k) hk6 _ (move_lt _ hk6 i hi),
    apply_move_getD _ (2 * k) hk6 _ (move_lt _ hk6 _ (move_lt _ hk6 i hi)),
    apply_move_getD _ (2 * k) hk6 _ (move_lt _ hk6 _ (move_lt _ hk6 _ (move_lt _ hk6 i hi))),
    move_order_four k hk i hi]

/-- Witness for C8 at `s = construct`, `m = FC`. -/
theorem claim8_generator_order_four_witness :
    construct.length = 24 ∧ (0 : Int) ∈ ([0, 2, 4] : List Int) ∧
      apply_move (apply_move (apply_move (apply_move construct 0) 0) 0) 0 = construct :=
  ⟨by decide, by decide, claim8_generator_order_four construct (by decide) 0 (by decide)⟩

/-- C9: a move identifier outside the 6 valid values (`m ≥ NUMMOVES` or
`m < 0`) is a no-op: `apply` returns the state unchanged. -/
theorem claim9_invalid_move_noop (s : State) (m : Int) (h : NUMMOVES ≤ m ∨ m < 0) :
    apply_move s m = s := by
  unfold apply_move
  rw [if_pos h]

/-- Witness for C9 at `m = 6` and `m = -1` on the solved state. -/
theorem claim9_invalid_move_noop_witness :
    (NUMMOVES ≤ (6 : Int) ∨ (6 : Int) < 0) ∧ apply_move construct 6 = construct ∧
      (NUMMOVES ≤ (-1 : Int) ∨ (-1 : Int) < 0) ∧ apply_move construct (-1) = construct :=
  ⟨Or.inl (by decide), claim9_invalid_move_noop construct 6 (Or.inl (by decide)),
    Or.inr (by decide), claim9_invalid_move_noop construct (-1) (Or.inr (by decide))⟩

/-- C10: the facelet packing round-trips its primary color
(`get_facelet_color (get_facelet_id c1 c2 c3) = c1`) and is injective on
valid color triples (the three 3-bit fields do not overlap). -/
theorem claim10_packing_roundtrip (c1 : Nat) (h1 : c1 < 6) (c2 : Nat) (h2 : c2 < 6)
    (c3 : Nat) (h3 : c3 < 6) :
    get_facelet_color (get_facelet_id c1 c2 c3) = c1 ∧
    ∀ d1 < 6, ∀ d2 < 6, ∀ d3 < 6,
      get_facelet_id c1 c2 c3 = get_facelet_id d1 d2 d3 → c1 = d1 ∧ c2 = d2 ∧ c3 = d3 := by
  have ext1 : ∀ a < 6, ∀ b < 6, ∀ c < 6, get_facelet_color (get_facelet_id a b c) = a := by
    decide
  have ext2 : ∀ a < 6, ∀ b < 6, ∀ c < 6, Nat.land (get_facelet_id a b c >>> 3) 7 = b := by
    decide
  have ext3 : ∀ a < 6, ∀ b < 6, ∀ c < 6, Nat.land (get_facelet_id a b c) 7 = c := by
    decide
  refine ⟨ext1 c1 h1 c2 h2 c3 h3, ?_⟩
  intro d1 hd1 d2 hd2 d3 hd3 heq
  refine ⟨?_, ?_, ?_⟩
  · rw [← ext1 c1 h1 c2 h2 c3 h3, ← ext1 d1 hd1 d2 hd2 d3 hd3, heq]
  · rw [← ext2 c1 h1 c2 h2 c3 h3, ← ext2 d1 hd1 d2 hd2 d3 hd3, heq]
  · rw [← ext3 c1 h1 c2 h2 c3 h3, ← ext3 d1 hd1 d2 hd2 d3 hd3, heq]

/-- C2: for every start state reachable from the constructed solved state,
replaying the sequence returned by `get_solution` from that start state, in
order via `apply_move`, yields a state satisfying `is_solved`. -/
theorem claim2_solver_correct (start : State) (h : Reachable construct start) :
    is_solved (replay start (get_solution start)) = true :=
  (get_solution_spec h).1

/-- Witness for C2 at `start = construct`. -/
theorem claim2_solver_correct_witness :
    is_solved (replay construct (get_solution construct)) = true :=
  claim2_solver_correct construct ⟨0, reachIn_self construct⟩

/-- C3: if the minimal number of moves from the solved state to `start` is
exactly `k`, then `get_solution start` has length exactly `k`, no strictly
shorter move sequence from `start` reaches any solved state, and in
particular an already-solved start state gets the empty sequence. -/
theorem claim3_solver_minimal (start : State) (k : Nat)
    (hk : IsLeast {n | ReachIn construct start n} k) :
    (get_solution start).length = k ∧
      (∀ n, n < k → ¬ ∃ w, ReachIn start w n ∧ is_solved w = true) ∧
      (is_solved start = true → get_solution start = []) := by
  have hreach : Reachable construct start := ⟨k, hk.1⟩
  have hs24 : start.length = 24 := reachable_length construct_length hreach
  obtain ⟨hsolves, hvalid, hmin⟩ := get_solution_spec hreach
  have hback : ReachIn start construct k := reachIn_symm construct_length hk.1
  have hle : (get_solution start).length ≤ k :=
    hmin k construct hback is_solved_construct
  have hdst_reach : ReachIn start (replay start (get_solution start))
      (get_solution start).length := ⟨get_solution start, rfl, hvalid, rfl⟩
  have hdst_constr : replay start (get_solution start) = construct :=
    solved_reachable_eq_construct (reachable_trans hreach ⟨_, hdst_reach⟩) hsolves
  have hge : k ≤ (get_solution start).length := by
    have h1 : ReachIn start construct (get_solution start).length := by
      rw [← hdst_constr]
      exact hdst_reach
    exact hk.2 (reachIn_symm hs24 h1)
  have hlen_eq : (get_solution start).length = k := by omega
  refine ⟨hlen_eq, ?_, ?_⟩
  · rintro n hn ⟨w, hw, hws⟩
    have := hmin n w hw hws
    omega
  · intro hstart_solved
    have hsc : start = construct := solved_reachable_eq_construct hreach hstart_solved
    have hk0 : k = 0 := by
      have hk2 := hk.2 (show 0 ∈ {n | ReachIn construct start n} from by
        rw [hsc]
        exact reachIn_self construct)
      omega
    rw [← List.length_eq_zero, hlen_eq, hk0]

/-- Witness for C3 at `start = construct`, `k = 0`. -/
theorem claim3_solver_minimal_witness :
    IsLeast {n | ReachIn construct construct n} 0 ∧
      ((get_solution construct).length = 0 ∧
        (∀ n, n < 0 → ¬ ∃ w, ReachIn construct w n ∧ is_solved w = true) ∧
        (is_solved construct = true → get_solution construct = [])) :=
  ⟨⟨reachIn_self construct, fun n _ => Nat.zero_le n⟩,
    claim3_solver_minimal construct 0 ⟨reachIn_self construct, fun n _ => Nat.zero_le n⟩⟩

/-- Witness for C10 at the triple `(0, 1, 2)`. -/
theorem claim10_packing_roundtrip_witness :
    0 < 6 ∧ 1 < 6 ∧ 2 < 6 ∧
      (get_facelet_color (get_facelet_id 0 1 2) = 0 ∧
        ∀ d1 < 6, ∀ d2 < 6, ∀ d3 < 6,
          get_facelet_id 0 1 2 = get_facelet_id d1 d2 d3 → 0 = d1 ∧ 1 = d2 ∧ 2 = d3) :=
  ⟨by decide, by decide, by decide,
    claim10_packing_roundtrip 0 (by decide) 1 (by decide) 2 (by decide)⟩

end RubiksCube
